import Mathlib

/-!
Shallow embedding of TurboParser's parameter storage and decoding core.

Embedded from the sources:
  src/classifier/Parameters.h            (Parameters, FeatureLabelCache)
  src/coreference_resolver/CoreferenceDictionary.h  (GenderNumberStatistics)
  src/dependency_labeler/DependencyLabelerDecoder.h (declarations only)

The sparse stores `SparseParameterVectorDouble` and
`SparseLabeledParameterVector` are declared in headers that are not among
the sources, so they are modelled from the specification (spec sections
4.1 and 4.2).  C++ doubles are modelled as exact rationals, `uint64_t`
feature ids as naturals (only equality is ever used on them), `int`
labels as integers.
-/

/-- First-match lookup in an association list; models the `find` of the
C++ `std::map` / `std::unordered_map` keyed containers (keys are unique
in those containers, so first-match agrees with map lookup). -/
def assocFind {κ β : Type} [DecidableEq κ] : List (κ × β) → κ → Option β
  | [], _ => none
  | e :: r, k => if e.1 = k then some e.2 else assocFind r k

/-- Add `d` to the first entry carrying the given key, leaving every other
entry untouched. -/
def assocAdd {κ : Type} [DecidableEq κ] : List (κ × ℚ) → κ → ℚ → List (κ × ℚ)
  | [], _, _ => []
  | e :: r, k, d => if e.1 = k then (e.1, e.2 + d) :: r else e :: assocAdd r k d

/-- Modelled from the spec: `SparseParameterVectorDouble`
(SparseParameterVector.h is not among the sources; contract from spec
section 4.1).  A sparse map from feature id to weight together with a
growth lock. -/
structure SparseParameterVectorDouble where
  values_ : List (ℕ × ℚ)
  growth_allowed_ : Bool

/-- Modelled from the spec: `Initialize` yields an empty store with growth
allowed. -/
def SparseParameterVectorDouble.Initialize : SparseParameterVectorDouble :=
  ⟨[], true⟩

/-- Modelled from the spec: `Exists(id)` distinguishes present from absent
keys. -/
def SparseParameterVectorDouble.Exists
    (s : SparseParameterVectorDouble) (key : ℕ) : Bool :=
  (assocFind s.values_ key).isSome

/-- Modelled from the spec: `Get(id)` returns 0.0 for an absent key. -/
def SparseParameterVectorDouble.Get
    (s : SparseParameterVectorDouble) (key : ℕ) : ℚ :=
  (assocFind s.values_ key).getD 0

/-- Modelled from the spec: `Add(id, delta)` does `weight[id] += delta`,
creating the key only while growth is allowed (otherwise the write on a
missing key fails silently). -/
def SparseParameterVectorDouble.Add
    (s : SparseParameterVectorDouble) (key : ℕ) (d : ℚ) :
    SparseParameterVectorDouble :=
  if s.Exists key then { s with values_ := assocAdd s.values_ key d }
  else if s.growth_allowed_ then { s with values_ := s.values_ ++ [(key, d)] }
  else s

/-- Modelled from the spec: `Scale(factor)` multiplies every stored weight
by the factor. -/
def SparseParameterVectorDouble.Scale
    (s : SparseParameterVectorDouble) (c : ℚ) : SparseParameterVectorDouble :=
  { s with values_ := s.values_.map (fun e => (e.1, e.2 * c)) }

/-- Modelled from the spec: `GetSquaredNorm()` is the sum of squares of all
stored weights. -/
def SparseParameterVectorDouble.GetSquaredNorm
    (s : SparseParameterVectorDouble) : ℚ :=
  (s.values_.map (fun e => e.2 * e.2)).sum

/-- Modelled from the spec: `StopGrowth` locks the key set. -/
def SparseParameterVectorDouble.StopGrowth
    (s : SparseParameterVectorDouble) : SparseParameterVectorDouble :=
  { s with growth_allowed_ := false }

/-- Modelled from the spec: `AllowGrowth` unlocks the key set. -/
def SparseParameterVectorDouble.AllowGrowth
    (s : SparseParameterVectorDouble) : SparseParameterVectorDouble :=
  { s with growth_allowed_ := true }

/-- Modelled from the spec: the whole-vector `Add` overload used by
`Parameters::Finalize`: add every entry of `t` into `s` entrywise. -/
def SparseParameterVectorDouble.AddVector
    (s t : SparseParameterVectorDouble) : SparseParameterVectorDouble :=
  t.values_.foldl (fun a e => a.Add e.1 e.2) s

/-- Add `d` to label `label` inside the per-feature label row, appending the
label when it is new. -/
def labelRowAdd (lv : List (ℤ × ℚ)) (label : ℤ) (d : ℚ) : List (ℤ × ℚ) :=
  if (assocFind lv label).isSome then assocAdd lv label d
  else lv ++ [(label, d)]

/-- Update the label row of the first entry carrying the given feature key. -/
def labeledAssocAdd : List (ℕ × List (ℤ × ℚ)) → ℕ → ℤ → ℚ →
    List (ℕ × List (ℤ × ℚ))
  | [], _, _, _ => []
  | e :: r, key, label, d =>
    if e.1 = key then (e.1, labelRowAdd e.2 label d) :: r
    else e :: labeledAssocAdd r key label d

/-- Modelled from the spec: `SparseLabeledParameterVector`
(SparseLabeledParameterVector.h is not among the sources; contract from
spec section 4.2).  A sparse map from feature id to a sparse label row,
with a growth lock. -/
structure SparseLabeledParameterVector where
  values_ : List (ℕ × List (ℤ × ℚ))
  growth_allowed_ : Bool

/-- Modelled from the spec: `Initialize` yields an empty store with growth
allowed. -/
def SparseLabeledParameterVector.Initialize : SparseLabeledParameterVector :=
  ⟨[], true⟩

/-- Modelled from the spec: `Exists(id)` is true when the feature id has a
label row. -/
def SparseLabeledParameterVector.Exists
    (s : SparseLabeledParameterVector) (key : ℕ) : Bool :=
  (assocFind s.values_ key).isSome

/-- The weight stored for one (feature, label) pair, 0 where the pair is
absent. -/
def SparseLabeledParameterVector.GetValue
    (s : SparseLabeledParameterVector) (key : ℕ) (label : ℤ) : ℚ :=
  match assocFind s.values_ key with
  | none => 0
  | some lv => (assocFind lv label).getD 0

/-- Modelled from the spec: `Get(id, labels)` returns one weight per
requested label (0.0 where the pair is absent) and reports not-found only
when the feature id has no labeled weights at all. -/
def SparseLabeledParameterVector.Get
    (s : SparseLabeledParameterVector) (key : ℕ) (labels : List ℤ) :
    Option (List ℚ) :=
  match assocFind s.values_ key with
  | none => none
  | some lv => some (labels.map (fun l => (assocFind lv l).getD 0))

/-- Modelled from the spec: `Add(id, label, delta)` updates a single
(feature, label) entry; a brand-new feature id is created only while
growth is allowed. -/
def SparseLabeledParameterVector.Add
    (s : SparseLabeledParameterVector) (key : ℕ) (label : ℤ) (d : ℚ) :
    SparseLabeledParameterVector :=
  if s.Exists key then
    { s with values_ := labeledAssocAdd s.values_ key label d }
  else if s.growth_allowed_ then
    { s with values_ := s.values_ ++ [(key, [(label, d)])] }
  else s

/-- Modelled from the spec: `Scale(factor)` multiplies every stored weight
by the factor. -/
def SparseLabeledParameterVector.Scale
    (s : SparseLabeledParameterVector) (c : ℚ) : SparseLabeledParameterVector :=
  { s with values_ := s.values_.map (fun e => (e.1, e.2.map (fun p => (p.1, p.2 * c)))) }

/-- Modelled from the spec: `GetSquaredNorm()` is the sum of squares of all
stored weights. -/
def SparseLabeledParameterVector.GetSquaredNorm
    (s : SparseLabeledParameterVector) : ℚ :=
  (s.values_.map (fun e => (e.2.map (fun p => p.2 * p.2)).sum)).sum

/-- Modelled from the spec: `StopGrowth` locks the key set. -/
def SparseLabeledParameterVector.StopGrowth
    (s : SparseLabeledParameterVector) : SparseLabeledParameterVector :=
  { s with growth_allowed_ := false }

/-- Modelled from the spec: `AllowGrowth` unlocks the key set. -/
def SparseLabeledParameterVector.AllowGrowth
    (s : SparseLabeledParameterVector) : SparseLabeledParameterVector :=
  { s with growth_allowed_ := true }

/-- Modelled from the spec: the whole-vector `Add` overload used by
`Parameters::Finalize`: add every (feature, label, weight) entry of `t`
into `s`. -/
def SparseLabeledParameterVector.AddVector
    (s t : SparseLabeledParameterVector) : SparseLabeledParameterVector :=
  t.values_.foldl (fun a e => e.2.foldl (fun a' p => a'.Add e.1 p.1 p.2) a) s

/-- `FeatureLabelCache` (Parameters.h): a hash table from (feature, label)
pairs to cached weights, plus hit/miss counters.  Keys in the C++
`unordered_map` are unique, modelled by a first-match association list
to which `Insert` never adds a duplicate key. -/
structure FeatureLabelCache where
  cache_ : List ((ℕ × ℤ) × ℚ)
  hits_ : ℕ
  misses_ : ℕ

/-- The state built by the `FeatureLabelCache` constructor: empty table,
zero counters. -/
def FeatureLabelCache.empty : FeatureLabelCache := ⟨[], 0, 0⟩

/-- `IncrementHits`: bump the hit counter. -/
def FeatureLabelCache.IncrementHits (c : FeatureLabelCache) : FeatureLabelCache :=
  { c with hits_ := c.hits_ + 1 }

/-- `IncrementMisses`: bump the miss counter. -/
def FeatureLabelCache.IncrementMisses (c : FeatureLabelCache) : FeatureLabelCache :=
  { c with misses_ := c.misses_ + 1 }

/-- `Insert`: `cache_.insert({key, value})` on a `std::unordered_map`
inserts only when the key is not yet present (it never overwrites). -/
def FeatureLabelCache.Insert
    (c : FeatureLabelCache) (key : ℕ × ℤ) (value : ℚ) : FeatureLabelCache :=
  if (assocFind c.cache_ key).isSome then c
  else { c with cache_ := (key, value) :: c.cache_ }

/-- `Find`: returns the cached value for the key when present (the C++
version writes it through an out-parameter and returns a boolean). -/
def FeatureLabelCache.Find (c : FeatureLabelCache) (key : ℕ × ℤ) : Option ℚ :=
  assocFind c.cache_ key

/-- `GetSize`: number of cached pairs. -/
def FeatureLabelCache.GetSize (c : FeatureLabelCache) : ℕ := c.cache_.length

/-- `Parameters` (Parameters.h): live and averaged stores for unlabeled and
labeled features, the averaging flag, and the weight cache member. -/
structure Parameters where
  use_average_ : Bool
  weights_ : SparseParameterVectorDouble
  averaged_weights_ : SparseParameterVectorDouble
  labeled_weights_ : SparseLabeledParameterVector
  averaged_labeled_weights_ : SparseLabeledParameterVector
  caching_weights_ : FeatureLabelCache

/-- The state built by the `Parameters` constructor (`use_average_ = true`,
default-constructed members modelled as empty stores). -/
def ParametersNew : Parameters :=
  ⟨true, SparseParameterVectorDouble.Initialize,
   SparseParameterVectorDouble.Initialize,
   SparseLabeledParameterVector.Initialize,
   SparseLabeledParameterVector.Initialize,
   FeatureLabelCache.empty⟩

/-- `Parameters::Initialize`: set the averaging flag and initialize the
stores; the averaged stores are initialized only when averaging is on. -/
def Parameters.Initialize (p : Parameters) (use_average : Bool) : Parameters :=
  { p with use_average_ := use_average,
           weights_ := SparseParameterVectorDouble.Initialize,
           averaged_weights_ :=
             if use_average then SparseParameterVectorDouble.Initialize
             else p.averaged_weights_,
           labeled_weights_ := SparseLabeledParameterVector.Initialize,
           averaged_labeled_weights_ :=
             if use_average then SparseLabeledParameterVector.Initialize
             else p.averaged_labeled_weights_ }

/-- `Parameters::StopGrowth`: lock all four stores. -/
def Parameters.StopGrowth (p : Parameters) : Parameters :=
  { p with weights_ := p.weights_.StopGrowth,
           averaged_weights_ := p.averaged_weights_.StopGrowth,
           labeled_weights_ := p.labeled_weights_.StopGrowth,
           averaged_labeled_weights_ := p.averaged_labeled_weights_.StopGrowth }

/-- `Parameters::AllowGrowth`: unlock all four stores. -/
def Parameters.AllowGrowth (p : Parameters) : Parameters :=
  { p with weights_ := p.weights_.AllowGrowth,
           averaged_weights_ := p.averaged_weights_.AllowGrowth,
           labeled_weights_ := p.labeled_weights_.AllowGrowth,
           averaged_labeled_weights_ := p.averaged_labeled_weights_.AllowGrowth }

/-- `Parameters::Exists`. -/
def Parameters.Exists (p : Parameters) (key : ℕ) : Bool :=
  p.weights_.Exists key

/-- `Parameters::ExistsLabeled`. -/
def Parameters.ExistsLabeled (p : Parameters) (key : ℕ) : Bool :=
  p.labeled_weights_.Exists key

/-- `Parameters::Get` on a simple feature. -/
def Parameters.Get (p : Parameters) (key : ℕ) : ℚ :=
  p.weights_.Get key

/-- The `Parameters::Get` overload for a feature conjoined with a list of
labels (named apart since Lean does not overload on arity). -/
def Parameters.GetLabeled (p : Parameters) (key : ℕ) (labels : List ℤ) :
    Option (List ℚ) :=
  p.labeled_weights_.Get key labels

/-- `Parameters::GetSquaredNorm`: the two live stores, added. -/
def Parameters.GetSquaredNorm (p : Parameters) : ℚ :=
  p.weights_.GetSquaredNorm + p.labeled_weights_.GetSquaredNorm

/-- `Parameters::ComputeScore`: running sum of `Get` over the listed
features. -/
def Parameters.ComputeScore (p : Parameters) (features : List ℕ) : ℚ :=
  features.foldl (fun score f => score + p.Get f) 0

/-- `Parameters::ComputeLabelScores`: scores start at one zero per label;
each feature whose labeled `Get` succeeds contributes its per-label
weights pointwise. -/
def Parameters.ComputeLabelScores
    (p : Parameters) (features : List ℕ) (labels : List ℤ) : List ℚ :=
  features.foldl (fun scores f =>
    match p.labeled_weights_.Get f labels with
    | none => scores
    | some ls => List.zipWith (fun a b => a + b) scores ls)
    (List.replicate labels.length 0)

/-- `Parameters::Scale`: only the two live stores are scaled. -/
def Parameters.Scale (p : Parameters) (scale_factor : ℚ) : Parameters :=
  { p with weights_ := p.weights_.Scale scale_factor,
           labeled_weights_ := p.labeled_weights_.Scale scale_factor }

/-- `Parameters::MakeGradientStep`: for each listed feature, add
`-eta * gradient` into the live weights and, when averaging,
`iteration * eta * gradient` into the averaged weights. -/
def Parameters.MakeGradientStep
    (p : Parameters) (features : List ℕ) (eta : ℚ) (iteration : ℤ)
    (gradient : ℚ) : Parameters :=
  features.foldl (fun q f =>
    let q' := { q with weights_ := q.weights_.Add f (-eta * gradient) }
    if q.use_average_ then
      { q' with averaged_weights_ :=
          q'.averaged_weights_.Add f ((iteration : ℚ) * eta * gradient) }
    else q') p

/-- `Parameters::MakeLabelGradientStep`: the same update, on the labeled
stores, for a single label. -/
def Parameters.MakeLabelGradientStep
    (p : Parameters) (features : List ℕ) (eta : ℚ) (iteration : ℤ)
    (label : ℤ) (gradient : ℚ) : Parameters :=
  let q := features.foldl (fun q f =>
    { q with labeled_weights_ := q.labeled_weights_.Add f label (-eta * gradient) }) p
  if q.use_average_ then
    features.foldl (fun q' f =>
      { q' with averaged_labeled_weights_ :=
          q'.averaged_labeled_weights_.Add f label ((iteration : ℚ) * eta * gradient) }) q
  else q

/-- `Parameters::Finalize`: when averaging, scale each averaged store by
`1 / num_iterations` and add it into the corresponding live store;
otherwise do nothing. -/
def Parameters.Finalize (p : Parameters) (num_iterations : ℤ) : Parameters :=
  if p.use_average_ then
    let aw := p.averaged_weights_.Scale (1 / (num_iterations : ℚ))
    let alw := p.averaged_labeled_weights_.Scale (1 / (num_iterations : ℚ))
    { p with weights_ := p.weights_.AddVector aw,
             averaged_weights_ := aw,
             labeled_weights_ := p.labeled_weights_.AddVector alw,
             averaged_labeled_weights_ := alw }
  else p

/-- Add `v` into position `i` of a score vector, modelling
`(*scores)[i] += v` (out-of-range writes cannot arise in the embedded
loops, where every index is below `labels.size()`). -/
def listAddAt : List ℚ → ℕ → ℚ → List ℚ
  | [], _, _ => []
  | x :: xs, 0, v => (x + v) :: xs
  | x :: xs, k + 1, v => x :: listAddAt xs k v

/-- The inner label loop of `Parameters::ComputeLabelScoresWithCache` for
one feature `f`: walk the labels with their indices starting at `k`;
cache hits add the cached value into the scores and bump the hit counter,
misses collect the label and its index into `reduced_labels` /
`adjust_new_index_reduced_labels` and bump the miss counter.  Returns the
cache, the reduced labels, their original indices, and the scores. -/
def scanLabels (f : ℕ) : FeatureLabelCache → List ℤ → ℕ → List ℚ →
    FeatureLabelCache × List ℤ × List ℕ × List ℚ
  | c, [], _, sc => (c, [], [], sc)
  | c, lab :: rest, k, sc =>
    match c.Find (f, lab) with
    | none =>
      let r := scanLabels f c.IncrementMisses rest (k + 1) sc
      (r.1, lab :: r.2.1, k :: r.2.2.1, r.2.2.2)
    | some v =>
      scanLabels f c.IncrementHits rest (k + 1) (listAddAt sc k v)

/-- The per-feature body of `Parameters::ComputeLabelScoresWithCache`:
skip features absent from the labeled store; otherwise scan the labels
against the cache, fetch the weights of the missed labels in one labeled
`Get`, add each fetched weight into its original score slot and insert it
into the cache. -/
def featureStepCached (p : Parameters) (labels : List ℤ)
    (st : List ℚ × FeatureLabelCache) (f : ℕ) : List ℚ × FeatureLabelCache :=
  if p.ExistsLabeled f then
    let r := scanLabels f st.2 labels 0 st.1
    if r.2.1 = [] then (r.2.2.2, r.1)
    else
      match p.labeled_weights_.Get f r.2.1 with
      | none => (r.2.2.2, r.1)
      | some ls =>
        (r.2.2.1.zip (r.2.1.zip ls)).foldl
          (fun st' t => (listAddAt st'.1 t.1 t.2.2, st'.2.Insert (f, t.2.1) t.2.2))
          (r.2.2.2, r.1)
  else st

/-- `Parameters::ComputeLabelScoresWithCache`: the cached scoring loop over
the features; returns the scores and the `Parameters` object with its
updated cache member. -/
def Parameters.ComputeLabelScoresWithCache
    (p : Parameters) (features : List ℕ) (labels : List ℤ) :
    List ℚ × Parameters :=
  let res := features.foldl (featureStepCached p labels)
    (List.replicate labels.length 0, p.caching_weights_)
  (res.1, { p with caching_weights_ := res.2 })

/-- `GenderNumberStatistics` (CoreferenceDictionary.h): a map from phrases
(lists of word ids) to count vectors, modelled by a first-match
association list with unique keys. -/
structure GenderNumberStatistics where
  phrase_counts_ : List (List ℤ × List ℤ)

/-- `GenderNumberStatistics::AddPhrase`: insert the counts for a phrase
only when the phrase is not yet present, reporting whether it inserted. -/
def GenderNumberStatistics.AddPhrase
    (s : GenderNumberStatistics) (phrase : List ℤ) (counts : List ℤ) :
    Bool × GenderNumberStatistics :=
  if (assocFind s.phrase_counts_ phrase).isSome then (false, s)
  else (true, ⟨(phrase, counts) :: s.phrase_counts_⟩)

/-- Modelled from the spec: the score of a 0/1 structure (a dense indicator
vector aligned with the parts) under a per-part score array. -/
def structureScore (scores : List ℚ) (y : List Bool) : ℚ :=
  (List.zipWith (fun s b => if b then s else 0) scores y).sum

/-- Modelled from the spec: the Hamming-style cost of a structure against
the gold structure — the number of parts on which they disagree. -/
def hammingCost (y gold : List Bool) : ℚ :=
  (List.zipWith (fun a b => if a = b then (0 : ℚ) else 1) y gold).sum

/-- Modelled from the spec: the exact argmax of the cost-augmented
objective `score(y) + cost(y, gold)` over the legal structures. -/
def argmaxAugmented (scores : List ℚ) (gold : List Bool) :
    List (List Bool) → Option (List Bool)
  | [] => none
  | y :: ys => some (ys.foldl (fun best z =>
      if structureScore scores best + hammingCost best gold <
         structureScore scores z + hammingCost z gold then z else best) y)

/-- Modelled from the spec: `DependencyLabelerDecoder::DecodeCostAugmented`
(only declared in the sources; behavior from spec section 4.4): decode the
best structure under the cost-augmented objective over the legal
structures of the instance, and return it with the realized cost and the
margin loss `score(predicted) + cost(predicted, gold) - score(gold)`. -/
def DecodeCostAugmented (legal : List (List Bool)) (scores : List ℚ)
    (gold : List Bool) : Option (List Bool × ℚ × ℚ) :=
  match argmaxAugmented scores gold legal with
  | none => none
  | some pred =>
    some (pred, hammingCost pred gold,
      structureScore scores pred + hammingCost pred gold -
        structureScore scores gold)

/-- One training update for the averaging identity: a feature list, a step
size, and a gradient, fed to `MakeGradientStep`. -/
structure Update where
  features : List ℕ
  eta : ℚ
  gradient : ℚ

/-- Apply a list of updates through `MakeGradientStep`, the `k`-th with
iteration number `i + k` (the training loop passes the number of updates
made so far). -/
def runUpdates : Parameters → ℤ → List Update → Parameters
  | p, _, [] => p
  | p, i, u :: us => runUpdates (p.MakeGradientStep u.features u.eta i u.gradient) (i + 1) us

/-- The post-update snapshots of the same update sequence: the state after
each update, in order. -/
def runSnapshots : Parameters → ℤ → List Update → List Parameters
  | _, _, [] => []
  | p, i, u :: us =>
    (p.MakeGradientStep u.features u.eta i u.gradient) ::
      runSnapshots (p.MakeGradientStep u.features u.eta i u.gradient) (i + 1) us

/-- Apply a sequence of `Parameters`-level growth toggles (`true` is
`StopGrowth`, `false` is `AllowGrowth`). -/
def applyGrowthOps : Parameters → List Bool → Parameters
  | p, [] => p
  | p, b :: r => applyGrowthOps (if b then p.StopGrowth else p.AllowGrowth) r

/-- The per-feature delta hitting `f` in one pass over a feature list:
each occurrence of `f` contributes `v`. -/
def hitSum (f : ℕ) (features : List ℕ) (v : ℚ) : ℚ :=
  (features.map (fun x => if x = f then v else 0)).sum

/-- The net change `MakeGradientStep` makes to the live weight of `f` for
one update. -/
def updDelta (u : Update) (f : ℕ) : ℚ :=
  hitSum f u.features (-u.eta * u.gradient)

/-- Index-weighted sum `i*d0 + (i+1)*d1 + ...` of a list of deltas. -/
def wsum : ℚ → List ℚ → ℚ
  | _, [] => 0
  | i, d :: r => i * d + wsum (i + 1) r

/-- Sum of the running partial sums of a list of deltas started at `w`:
the sum of the post-update snapshots of one weight. -/
def ssum : ℚ → List ℚ → ℚ
  | _, [] => 0
  | w, d :: r => (w + d) + ssum (w + d) r

/-- The keys of a sparse store are pairwise distinct; every store built by
the embedded operations from `Initialize` satisfies this. -/
def KeysNodup (s : SparseParameterVectorDouble) : Prop :=
  (s.values_.map Prod.fst).Nodup

/-- The score component of the reduced-label write-back loop: fold a list
of (index, label, value) triples into a score vector, adding each value
at its index. -/
def scoresFold (zs : List (ℕ × ℤ × ℚ)) (sc : List ℚ) : List ℚ :=
  zs.foldl (fun s t => listAddAt s t.1 t.2.2) sc

/-- Add the values `vs` into consecutive slots of a score vector starting
at slot `k`. -/
def zipAddFrom : List ℚ → ℕ → List ℚ → List ℚ
  | sc, _, [] => sc
  | sc, k, v :: vs => zipAddFrom (listAddAt sc k v) (k + 1) vs

/-- The cache agrees with the labeled store: every cached entry holds
exactly the store's current weight of its (feature, label) pair. -/
def cacheConsistent (p : Parameters) (c : FeatureLabelCache) : Prop :=
  ∀ e ∈ c.cache_, e.2 = p.labeled_weights_.GetValue e.1.1 e.1.2

/-- All four stores of a `Parameters` agree on whether growth is allowed. -/
def sameGrowthState (q : Parameters) : Prop :=
  q.weights_.growth_allowed_ = q.averaged_weights_.growth_allowed_ ∧
  q.weights_.growth_allowed_ = q.labeled_weights_.growth_allowed_ ∧
  q.weights_.growth_allowed_ = q.averaged_labeled_weights_.growth_allowed_

/-- A small concrete unlabeled store used by witnesses. -/
def sampleStore : SparseParameterVectorDouble := ⟨[(1, 2), (2, -1)], true⟩

/-- A small concrete labeled store used by witnesses. -/
def sampleLabeledStore : SparseLabeledParameterVector :=
  ⟨[(1, [(0, 3), (1, 5)]), (2, [(0, 7)])], true⟩

/-- Concrete parameters used by witnesses. -/
def sampleParams : Parameters :=
  ⟨true, sampleStore, SparseParameterVectorDouble.Initialize,
   sampleLabeledStore, SparseLabeledParameterVector.Initialize,
   FeatureLabelCache.empty⟩

/-- Concrete parameters whose four stores start in different growth
states. -/
def mixedGrowthParams : Parameters :=
  ⟨true, ⟨[], true⟩, ⟨[], false⟩, ⟨[], true⟩, ⟨[], false⟩,
   FeatureLabelCache.empty⟩

/-- Concrete parameters carrying a nonempty cache consistent with the
labeled store. -/
def cachedSampleParams : Parameters :=
  { sampleParams with caching_weights_ := ⟨[((1, 0), 3)], 0, 0⟩ }

/-! ## Basic lemmas about association lists -/

/-- A successful association lookup returns a member of the list. -/
theorem assocFind_mem {κ β : Type} [DecidableEq κ]
    (l : List (κ × β)) (k : κ) (v : β) (h : assocFind l k = some v) :
    (k, v) ∈ l := by
  induction l with
  | nil => simp [assocFind] at h
  | cons e r ih =>
    rw [assocFind] at h
    by_cases he : e.1 = k
    · rw [if_pos he] at h
      injection h with hv
      have : e = (k, v) := by
        obtain ⟨a, b⟩ := e
        simp at he hv
        rw [he, hv]
      rw [← this]
      exact List.mem_cons_self e r
    · rw [if_neg he] at h
      exact List.mem_cons_of_mem _ (ih h)

/-! ## C9: cache insertion is first-write-wins -/

/-- C9: `FeatureLabelCache` insertion is first-write-wins: inserting under
a key absent from the cache makes `Find` return the inserted value, while
inserting under a key already cached leaves the previously cached value
in place — an insert never overwrites. -/
theorem featureLabelCache_insert_first_write_wins
    (c : FeatureLabelCache) (k : ℕ × ℤ) (v v' : ℚ) :
    (c.Find k = none → (c.Insert k v).Find k = some v) ∧
    (∀ v0, c.Find k = some v0 → (c.Insert k v').Find k = some v0) := by
  constructor
  · intro h
    rw [FeatureLabelCache.Find] at h
    simp [FeatureLabelCache.Insert, FeatureLabelCache.Find, h, assocFind]
  · intro v0 h
    rw [FeatureLabelCache.Find] at h
    simp [FeatureLabelCache.Insert, FeatureLabelCache.Find, h]

/-- Witness for C9 at a concrete cache: a fresh insert is found, and a
second insert under the same key does not overwrite the first value. -/
theorem featureLabelCache_insert_first_write_wins_w :
    (FeatureLabelCache.empty.Find (3, 5) = none ∧
      (FeatureLabelCache.empty.Insert (3, 5) 2).Find (3, 5) = some 2) ∧
    ((FeatureLabelCache.empty.Insert (3, 5) 2).Find (3, 5) = some 2 ∧
      ((FeatureLabelCache.empty.Insert (3, 5) 2).Insert (3, 5) 7).Find (3, 5)
        = some 2) := by
  refine ⟨⟨by decide, ?_⟩, ⟨by decide, ?_⟩⟩
  · exact (featureLabelCache_insert_first_write_wins
      FeatureLabelCache.empty (3, 5) 2 0).1 (by decide)
  · exact (featureLabelCache_insert_first_write_wins
      (FeatureLabelCache.empty.Insert (3, 5) 2) (3, 5) 0 7).2 2 (by decide)

/-! ## C10: AddPhrase inserts exactly when the phrase is new -/

/-- C10: `GenderNumberStatistics::AddPhrase` returns true exactly when the
phrase was absent; in that case it records the counts for the phrase and
leaves every other phrase's entry alone, and when the phrase is already
present it returns false and leaves the whole mapping unchanged. -/
theorem genderNumberStatistics_addPhrase_spec
    (s : GenderNumberStatistics) (phrase counts : List ℤ) :
    ((s.AddPhrase phrase counts).1 = true ↔
      assocFind s.phrase_counts_ phrase = none) ∧
    (assocFind s.phrase_counts_ phrase = none →
      assocFind (s.AddPhrase phrase counts).2.phrase_counts_ phrase
          = some counts ∧
      ∀ q, q ≠ phrase →
        assocFind (s.AddPhrase phrase counts).2.phrase_counts_ q
          = assocFind s.phrase_counts_ q) ∧
    (∀ v0, assocFind s.phrase_counts_ phrase = some v0 →
      (s.AddPhrase phrase counts).2 = s) := by
  refine ⟨?_, ?_, ?_⟩
  · constructor
    · intro h
      by_cases hf : (assocFind s.phrase_counts_ phrase).isSome
      · rw [GenderNumberStatistics.AddPhrase, if_pos hf] at h
        simp at h
      · exact Option.not_isSome_iff_eq_none.mp hf
    · intro h
      rw [GenderNumberStatistics.AddPhrase]
      rw [h]
      simp
  · intro h
    rw [GenderNumberStatistics.AddPhrase, h]
    simp only [Option.isSome_none, Bool.false_eq_true, if_false]
    constructor
    · simp [assocFind]
    · intro q hq
      simp [assocFind, hq.symm]
  · intro v0 h
    rw [GenderNumberStatistics.AddPhrase, h]
    simp

/-- Witness for C10 at a concrete statistics table: adding a new phrase
succeeds and records its counts without touching the other entry, and
re-adding an existing phrase fails and changes nothing. -/
theorem genderNumberStatistics_addPhrase_spec_w :
    (assocFind (GenderNumberStatistics.mk [([2], [1, 0, 0, 0])]).phrase_counts_
        [7] = none ∧
      assocFind ((GenderNumberStatistics.mk
        [([2], [1, 0, 0, 0])]).AddPhrase [7] [0, 1, 0, 0]).2.phrase_counts_ [7]
          = some [0, 1, 0, 0] ∧
      assocFind ((GenderNumberStatistics.mk
        [([2], [1, 0, 0, 0])]).AddPhrase [7] [0, 1, 0, 0]).2.phrase_counts_ [2]
          = assocFind (GenderNumberStatistics.mk
            [([2], [1, 0, 0, 0])]).phrase_counts_ [2]) ∧
    (assocFind (GenderNumberStatistics.mk
        [([2], [1, 0, 0, 0])]).phrase_counts_ [2] = some [1, 0, 0, 0] ∧
      ((GenderNumberStatistics.mk [([2], [1, 0, 0, 0])]).AddPhrase [2] [9]).2
        = GenderNumberStatistics.mk [([2], [1, 0, 0, 0])]) := by
  refine ⟨⟨by decide, ?_, ?_⟩, by decide, ?_⟩
  · exact ((genderNumberStatistics_addPhrase_spec
      (GenderNumberStatistics.mk [([2], [1, 0, 0, 0])]) [7] [0, 1, 0, 0]).2.1
        (by decide)).1
  · exact ((genderNumberStatistics_addPhrase_spec
      (GenderNumberStatistics.mk [([2], [1, 0, 0, 0])]) [7] [0, 1, 0, 0]).2.1
        (by decide)).2 [2] (by decide)
  · exact (genderNumberStatistics_addPhrase_spec
      (GenderNumberStatistics.mk [([2], [1, 0, 0, 0])]) [2] [9]).2.2
        [1, 0, 0, 0] (by decide)

/-! ## C5: Finalize is a no-op without averaging -/

/-- C5: with `use_average_` false, `Finalize` leaves the `Parameters`
object — all four stores included — unchanged, so every subsequent
`Get`, `ComputeScore`, `ComputeLabelScores` and `GetSquaredNorm` result
is the same as before the call. -/
theorem finalize_noop_without_averaging
    (p : Parameters) (n : ℤ) (h : p.use_average_ = false) :
    (p.Finalize n).weights_ = p.weights_ ∧
    (p.Finalize n).averaged_weights_ = p.averaged_weights_ ∧
    (p.Finalize n).labeled_weights_ = p.labeled_weights_ ∧
    (p.Finalize n).averaged_labeled_weights_ = p.averaged_labeled_weights_ ∧
    (∀ k, (p.Finalize n).Get k = p.Get k) ∧
    (∀ fs, (p.Finalize n).ComputeScore fs = p.ComputeScore fs) ∧
    (∀ fs ls, (p.Finalize n).ComputeLabelScores fs ls
        = p.ComputeLabelScores fs ls) ∧
    (p.Finalize n).GetSquaredNorm = p.GetSquaredNorm := by
  have hid : p.Finalize n = p := by
    rw [Parameters.Finalize, h]
    simp
  rw [hid]
  exact ⟨rfl, rfl, rfl, rfl, fun _ => rfl, fun _ => rfl, fun _ _ => rfl, rfl⟩

/-- Witness for C5 at a concrete non-averaging `Parameters` state. -/
theorem finalize_noop_without_averaging_w :
    ((sampleParams.Initialize false).use_average_ = false) ∧
    (((sampleParams.Initialize false).Finalize 5).weights_
        = (sampleParams.Initialize false).weights_ ∧
      ∀ k, ((sampleParams.Initialize false).Finalize 5).Get k
        = (sampleParams.Initialize false).Get k) := by
  have h : (sampleParams.Initialize false).use_average_ = false := rfl
  have hm := finalize_noop_without_averaging (sampleParams.Initialize false) 5 h
  exact ⟨h, hm.1, hm.2.2.2.2.1⟩

/-! ## C7: growth toggles propagate to all four stores -/

/-- After one `Parameters`-level growth toggle all four stores agree. -/
theorem applyGrowthOps_cons_same :
    ∀ (r : List Bool) (p : Parameters) (b : Bool),
      sameGrowthState (applyGrowthOps p (b :: r)) := by
  intro r
  induction r with
  | nil =>
    intro p b
    cases b <;>
      simp [applyGrowthOps, sameGrowthState, Parameters.StopGrowth,
        Parameters.AllowGrowth, SparseParameterVectorDouble.StopGrowth,
        SparseParameterVectorDouble.AllowGrowth,
        SparseLabeledParameterVector.StopGrowth,
        SparseLabeledParameterVector.AllowGrowth]
  | cons c r ih =>
    intro p b
    have : applyGrowthOps p (b :: c :: r)
        = applyGrowthOps (if b then p.StopGrowth else p.AllowGrowth) (c :: r) :=
      rfl
    rw [this]
    exact ih _ c

/-- C7: any nonempty sequence of `Parameters`-level `StopGrowth` /
`AllowGrowth` calls leaves the live unlabeled, averaged unlabeled, live
labeled and averaged labeled stores in the identical growth state. -/
theorem growth_toggles_propagate
    (p : Parameters) (ops : List Bool) (h : ops ≠ []) :
    sameGrowthState (applyGrowthOps p ops) := by
  match ops with
  | [] => exact absurd rfl h
  | b :: r => exact applyGrowthOps_cons_same r p b

/-- Witness for C7: starting from stores with mismatched growth states, a
concrete toggle sequence leaves all four stores agreeing. -/
theorem growth_toggles_propagate_w :
    (([false, true] : List Bool) ≠ []) ∧
    sameGrowthState (applyGrowthOps mixedGrowthParams [false, true]) :=
  ⟨by simp, growth_toggles_propagate mixedGrowthParams [false, true] (by simp)⟩

/-! ## C4: ComputeScore is the sum of Get over the listed features -/

/-- The running-sum loop of `ComputeScore`, started at any accumulator,
adds the sum of `Get` over the listed features. -/
theorem computeScore_foldl (p : Parameters) :
    ∀ (features : List ℕ) (a : ℚ),
      features.foldl (fun score f => score + p.Get f) a
        = a + (features.map (fun f => p.Get f)).sum := by
  intro features
  induction features with
  | nil => intro a; simp
  | cons f fs ih =>
    intro a
    simp only [List.foldl_cons, List.map_cons, List.sum_cons]
    rw [ih (a + p.Get f)]
    ring

/-- C4: `ComputeScore(features)` equals the sum over each listed feature
(duplicates counted with multiplicity) of `Get(feature)`, and `Get`
returns 0 for any absent feature id, so absent features contribute
nothing. -/
theorem computeScore_is_sum_of_get (p : Parameters) (features : List ℕ) :
    p.ComputeScore features = (features.map (fun f => p.Get f)).sum ∧
    (∀ k, p.Exists k = false → p.Get k = 0) := by
  constructor
  · rw [Parameters.ComputeScore, computeScore_foldl]
    ring
  · intro k h
    rw [Parameters.Exists, SparseParameterVectorDouble.Exists] at h
    rw [Parameters.Get, SparseParameterVectorDouble.Get]
    cases hf : assocFind p.weights_.values_ k with
    | none => rfl
    | some v => rw [hf] at h; simp at h

/-- Witness for C4 at a concrete store (feature 1 listed twice, feature 9
absent). -/
theorem computeScore_is_sum_of_get_w :
    (sampleParams.ComputeScore [1, 1, 2, 9]
      = (([1, 1, 2, 9] : List ℕ).map (fun f => sampleParams.Get f)).sum) ∧
    (sampleParams.Exists 9 = false ∧ sampleParams.Get 9 = 0) :=
  ⟨(computeScore_is_sum_of_get sampleParams [1, 1, 2, 9]).1,
   by decide,
   (computeScore_is_sum_of_get sampleParams [1, 1, 2, 9]).2 9 (by decide)⟩

/-! ## C6: Scale and GetSquaredNorm act only on the live stores -/

/-- Scaling an unlabeled store multiplies every `Get` result by the
factor. -/
theorem spv_scale_get (s : SparseParameterVectorDouble) (c : ℚ) (k : ℕ) :
    (s.Scale c).Get k = s.Get k * c := by
  rw [SparseParameterVectorDouble.Scale, SparseParameterVectorDouble.Get,
    SparseParameterVectorDouble.Get]
  simp only
  induction s.values_ with
  | nil => simp [assocFind]
  | cons e r ih =>
    by_cases he : e.1 = k
    · simp [assocFind, he]
    · simp only [List.map_cons, assocFind, he, if_false]
      exact ih

/-- Scaling a labeled store multiplies every per-pair weight by the
factor. -/
theorem slpv_scale_getValue (s : SparseLabeledParameterVector) (c : ℚ)
    (k : ℕ) (l : ℤ) :
    (s.Scale c).GetValue k l = s.GetValue k l * c := by
  rw [SparseLabeledParameterVector.Scale, SparseLabeledParameterVector.GetValue,
    SparseLabeledParameterVector.GetValue]
  simp only
  induction s.values_ with
  | nil => simp [assocFind]
  | cons e r ih =>
    by_cases he : e.1 = k
    · simp only [List.map_cons, assocFind, he, if_true, if_pos]
      induction e.2 with
      | nil => simp [assocFind]
      | cons q w ihq =>
        by_cases hq : q.1 = l
        · simp [assocFind, hq]
        · simp only [List.map_cons, assocFind, hq, if_false]
          exact ihq
    · simp only [List.map_cons, assocFind, he, if_false]
      exact ih

/-- C6: `Scale` multiplies every live unlabeled and live labeled weight by
the factor and leaves both averaged stores unchanged, and
`GetSquaredNorm` reports the sum of the two live stores' squared norms —
it does not depend on the averaged stores at all. -/
theorem scale_and_norm_touch_only_live_stores
    (b : Bool) (w a : SparseParameterVectorDouble)
    (lw la : SparseLabeledParameterVector) (cw : FeatureLabelCache) (c : ℚ) :
    ((Parameters.mk b w a lw la cw).Scale c).averaged_weights_ = a ∧
    ((Parameters.mk b w a lw la cw).Scale c).averaged_labeled_weights_ = la ∧
    (∀ k, ((Parameters.mk b w a lw la cw).Scale c).weights_.Get k
        = w.Get k * c) ∧
    (∀ k l, ((Parameters.mk b w a lw la cw).Scale c).labeled_weights_.GetValue k l
        = lw.GetValue k l * c) ∧
    ((Parameters.mk b w a lw la cw).GetSquaredNorm
        = w.GetSquaredNorm + lw.GetSquaredNorm) ∧
    (∀ a' la', (Parameters.mk b w a' lw la' cw).GetSquaredNorm
        = (Parameters.mk b w a lw la cw).GetSquaredNorm) :=
  ⟨rfl, rfl, fun k => spv_scale_get w c k, fun k l => slpv_scale_getValue lw c k l,
   rfl, fun _ _ => rfl⟩

/-! ## C8: cost-augmented decoding returns a nonnegative margin loss -/

/-- The running-max loop of `argmaxAugmented` returns a structure whose
augmented objective dominates the seed and every scanned candidate. -/
theorem argmax_foldl_ge (g : List Bool → ℚ) :
    ∀ (ys : List (List Bool)) (y z : List Bool), (z = y ∨ z ∈ ys) →
      g z ≤ g (ys.foldl (fun best w => if g best < g w then w else best) y) := by
  intro ys
  induction ys with
  | nil =>
    intro y z hz
    rcases hz with rfl | hz
    · exact le_refl _
    · simp at hz
  | cons w ws ih =>
    intro y z hz
    simp only [List.foldl_cons]
    have hy : g y ≤ g (if g y < g w then w else y) := by
      by_cases hlt : g y < g w
      · rw [if_pos hlt]; exact le_of_lt hlt
      · rw [if_neg hlt]
    have hw : g w ≤ g (if g y < g w then w else y) := by
      by_cases hlt : g y < g w
      · rw [if_pos hlt]
      · rw [if_neg hlt]; exact le_of_not_lt hlt
    have hacc := ih (if g y < g w then w else y) (if g y < g w then w else y)
      (Or.inl rfl)
    rcases hz with rfl | hz
    · exact le_trans hy hacc
    · rcases List.mem_cons.mp hz with rfl | h1
      · exact le_trans hw hacc
      · exact ih _ z (Or.inr h1)

/-- The Hamming-style cost of any structure against itself is zero. -/
theorem hammingCost_self (g : List Bool) : hammingCost g g = 0 := by
  rw [hammingCost]
  induction g with
  | nil => simp
  | cons x xs ih =>
    simp only [List.zipWith_cons_cons, List.sum_cons, if_pos rfl]
    rw [ih]
    simp

/-- C8: `DecodeCostAugmented` returns the loss
`score(predicted) + cost(predicted, gold) - score(gold)`, and whenever
the gold structure is itself a legal structure, this loss is nonnegative
by optimality of the predicted structure under the cost-augmented
objective. -/
theorem decodeCostAugmented_loss_nonneg
    (legal : List (List Bool)) (scores : List ℚ) (gold : List Bool)
    (h : gold ∈ legal) :
    ∃ pred : List Bool,
      DecodeCostAugmented legal scores gold
        = some (pred, hammingCost pred gold,
            structureScore scores pred + hammingCost pred gold
              - structureScore scores gold) ∧
      0 ≤ structureScore scores pred + hammingCost pred gold
            - structureScore scores gold := by
  match legal with
  | [] => exact absurd h (List.not_mem_nil gold)
  | y :: ys =>
    set g : List Bool → ℚ :=
      fun z => structureScore scores z + hammingCost z gold with hg
    have hpred : argmaxAugmented scores gold (y :: ys)
        = some (ys.foldl (fun best z => if g best < g z then z else best) y) := by
      rw [argmaxAugmented]
    set pred := ys.foldl (fun best z => if g best < g z then z else best) y
      with hpredd
    refine ⟨pred, ?_, ?_⟩
    · rw [DecodeCostAugmented, hpred]
    · have hopt : g gold ≤ g pred := by
        rcases List.mem_cons.mp h with rfl | hmem
        · exact argmax_foldl_ge g ys gold gold (Or.inl rfl)
        · exact argmax_foldl_ge g ys y gold (Or.inr hmem)
      rw [hg] at hopt
      simp only at hopt
      have hzero := hammingCost_self gold
      linarith

/-- Witness for C8 at a concrete two-structure instance. -/
theorem decodeCostAugmented_loss_nonneg_w :
    (([false] : List Bool) ∈ [[true], [false]]) ∧
    ∃ pred : List Bool,
      DecodeCostAugmented [[true], [false]] [3] [false]
        = some (pred, hammingCost pred [false],
            structureScore [3] pred + hammingCost pred [false]
              - structureScore [3] [false]) ∧
      0 ≤ structureScore [3] pred + hammingCost pred [false]
            - structureScore [3] [false] :=
  ⟨by decide,
   decodeCostAugmented_loss_nonneg [[true], [false]] [3] [false] (by decide)⟩

/-! ## Store-level lemmas for the averaging identity -/

/-- Symmetry of the key test inside a guarded value. -/
theorem ite_key_comm (a b : ℕ) (v : ℚ) :
    (if a = b then v else 0) = (if b = a then v else 0) := by
  by_cases h : a = b
  · rw [if_pos h, if_pos h.symm]
  · rw [if_neg h, if_neg (fun hba => h hba.symm)]

/-- Adding into an existing key shifts exactly that key's `Get`. -/
theorem assocAdd_find_getD (l : List (ℕ × ℚ)) (k k' : ℕ) (d : ℚ)
    (hk : (assocFind l k).isSome = true) :
    (assocFind (assocAdd l k d) k').getD 0
      = (assocFind l k').getD 0 + if k' = k then d else 0 := by
  induction l with
  | nil => simp [assocFind] at hk
  | cons e r ih =>
    rw [assocAdd]
    by_cases he : e.1 = k
    · rw [if_pos he]
      by_cases hk' : e.1 = k'
      · have hkk : k' = k := by rw [← hk', he]
        simp [assocFind, hk', hkk]
      · have hkk : ¬ k' = k := fun hkk => hk' (by rw [hkk, he])
        simp [assocFind, hk', hkk]
    · rw [if_neg he]
      by_cases hk' : e.1 = k'
      · have hkk : ¬ k' = k := fun hkk => he (by rw [hk', hkk])
        simp [assocFind, hk', hkk]
      · rw [assocFind] at hk
        rw [if_neg he] at hk
        simp only [assocFind, hk', if_false]
        exact ih hk

/-- Appending a brand-new key shifts exactly that key's `Get`. -/
theorem assocAppend_find_getD (l : List (ℕ × ℚ)) (k k' : ℕ) (d : ℚ)
    (hk : assocFind l k = none) :
    (assocFind (l ++ [(k, d)]) k').getD 0
      = (assocFind l k').getD 0 + if k' = k then d else 0 := by
  induction l with
  | nil =>
    by_cases hk' : k = k'
    · subst hk'
      simp [assocFind]
    · have hkk : ¬ k' = k := fun h => hk' h.symm
      simp [assocFind, hk', hkk]
  | cons e r ih =>
    rw [assocFind] at hk
    by_cases he : e.1 = k
    · rw [if_pos he] at hk
      simp at hk
    · rw [if_neg he] at hk
      by_cases hk' : e.1 = k'
      · have hkk : ¬ k' = k := fun hkk => he (by rw [hk', hkk])
        simp [assocFind, hk', hkk]
      · simp only [List.cons_append, assocFind, hk', if_false]
        exact ih hk

/-- Effect of `Add` on `Get` while growth is allowed: exactly the added
key moves by the delta. -/
theorem spv_get_add (s : SparseParameterVectorDouble)
    (hg : s.growth_allowed_ = true) (k k' : ℕ) (d : ℚ) :
    (s.Add k d).Get k' = s.Get k' + if k' = k then d else 0 := by
  rw [SparseParameterVectorDouble.Add]
  by_cases hex : s.Exists k = true
  · rw [if_pos hex]
    rw [SparseParameterVectorDouble.Get, SparseParameterVectorDouble.Get]
    exact assocAdd_find_getD s.values_ k k' d
      (by rwa [SparseParameterVectorDouble.Exists] at hex)
  · rw [if_neg hex, if_pos hg]
    rw [SparseParameterVectorDouble.Get, SparseParameterVectorDouble.Get]
    refine assocAppend_find_getD s.values_ k k' d ?_
    rw [SparseParameterVectorDouble.Exists] at hex
    exact Option.not_isSome_iff_eq_none.mp hex

/-- `Add` never changes the growth flag. -/
theorem spv_add_flag (s : SparseParameterVectorDouble) (k : ℕ) (d : ℚ) :
    (s.Add k d).growth_allowed_ = s.growth_allowed_ := by
  rw [SparseParameterVectorDouble.Add]
  split
  · rfl
  · split <;> rfl

/-- `assocAdd` preserves the key list. -/
theorem assocAdd_keys (l : List (ℕ × ℚ)) (k : ℕ) (d : ℚ) :
    (assocAdd l k d).map Prod.fst = l.map Prod.fst := by
  induction l with
  | nil => rfl
  | cons e r ih =>
    rw [assocAdd]
    by_cases he : e.1 = k
    · rw [if_pos he]; rfl
    · rw [if_neg he]
      simp only [List.map_cons]
      rw [ih]

/-- A key that fails lookup is not among the key list. -/
theorem not_mem_keys_of_assocFind_none {κ β : Type} [DecidableEq κ]
    (l : List (κ × β)) (k : κ) (h : assocFind l k = none) :
    k ∉ l.map Prod.fst := by
  induction l with
  | nil => simp
  | cons e r ih =>
    rw [assocFind] at h
    by_cases he : e.1 = k
    · rw [if_pos he] at h; simp at h
    · rw [if_neg he] at h
      simp only [List.map_cons, List.mem_cons]
      intro hmem
      rcases hmem with h1 | h1
      · exact he h1.symm
      · exact ih h h1

/-- `Add` preserves distinctness of the stored keys. -/
theorem spv_add_nodup (s : SparseParameterVectorDouble) (k : ℕ) (d : ℚ)
    (h : KeysNodup s) : KeysNodup (s.Add k d) := by
  rw [SparseParameterVectorDouble.Add]
  by_cases hex : s.Exists k = true
  · rw [if_pos hex]
    rw [KeysNodup] at h ⊢
    simpa [assocAdd_keys] using h
  · rw [if_neg hex]
    by_cases hg : s.growth_allowed_ = true
    · rw [if_pos hg]
      rw [KeysNodup] at h ⊢
      simp only [List.map_append]
      rw [List.nodup_append]
      refine ⟨h, by simp, ?_⟩
      intro x hx hx2
      simp only [List.map_cons, List.map_nil, List.mem_singleton] at hx2
      rw [hx2] at hx
      rw [SparseParameterVectorDouble.Exists] at hex
      exact not_mem_keys_of_assocFind_none s.values_ k
        (Option.not_isSome_iff_eq_none.mp hex) hx
    · rw [if_neg hg]; exact h

/-- `Scale` preserves the key list. -/
theorem spv_scale_keys (s : SparseParameterVectorDouble) (c : ℚ) :
    (s.Scale c).values_.map Prod.fst = s.values_.map Prod.fst := by
  rw [SparseParameterVectorDouble.Scale]
  induction s.values_ with
  | nil => rfl
  | cons e r ih =>
    simp only [List.map_cons]
    rw [ih]

/-- `Scale` preserves distinctness of the stored keys. -/
theorem spv_scale_nodup (s : SparseParameterVectorDouble) (c : ℚ)
    (h : KeysNodup s) : KeysNodup (s.Scale c) := by
  rw [KeysNodup] at h ⊢
  rwa [spv_scale_keys]

/-- The entrywise-add fold adds, at each key, the sum of the matching
entries of the folded list. -/
theorem spv_foldl_add_get (l : List (ℕ × ℚ)) :
    ∀ (s : SparseParameterVectorDouble), s.growth_allowed_ = true → ∀ k,
      (l.foldl (fun a e => a.Add e.1 e.2) s).Get k
        = s.Get k + (l.map (fun e => if k = e.1 then e.2 else 0)).sum := by
  induction l with
  | nil => intro s _ k; simp
  | cons e r ih =>
    intro s hg k
    simp only [List.foldl_cons, List.map_cons, List.sum_cons]
    rw [ih (s.Add e.1 e.2) (by rw [spv_add_flag]; exact hg) k,
      spv_get_add s hg e.1 k e.2]
    ring

/-- With no matching key in the list, the matching-entry sum vanishes. -/
theorem sum_hits_eq_zero (r : List (ℕ × ℚ)) (k : ℕ)
    (h : k ∉ r.map Prod.fst) :
    (r.map (fun e => if k = e.1 then e.2 else 0)).sum = 0 := by
  induction r with
  | nil => simp
  | cons e s ih =>
    simp only [List.map_cons, List.mem_cons] at h
    push_neg at h
    simp only [List.map_cons, List.sum_cons]
    rw [if_neg h.1, ih h.2]
    simp

/-- Under distinct keys, the matching-entry sum is exactly the stored
value of the key (or 0 when absent). -/
theorem sum_hits_eq_getD (l : List (ℕ × ℚ)) (k : ℕ)
    (h : (l.map Prod.fst).Nodup) :
    (l.map (fun e => if k = e.1 then e.2 else 0)).sum
      = (assocFind l k).getD 0 := by
  induction l with
  | nil => simp [assocFind]
  | cons e r ih =>
    simp only [List.map_cons, List.nodup_cons] at h
    simp only [List.map_cons, List.sum_cons, assocFind]
    by_cases he : e.1 = k
    · rw [if_pos he, if_pos he.symm]
      have hget : (r.map (fun e' => if k = e'.1 then e'.2 else 0)).sum = 0 :=
        sum_hits_eq_zero r k (by rw [← he]; exact h.1)
      rw [hget]
      simp
    · rw [if_neg he, if_neg (fun hkk => he hkk.symm), ih h.2]
      simp

/-- `AddVector` adds the folded store's `Get` at every key (the folded
store's keys must be distinct, which every reachable store satisfies). -/
theorem spv_addVector_get (s t : SparseParameterVectorDouble)
    (hg : s.growth_allowed_ = true) (hnd : KeysNodup t) (k : ℕ) :
    (s.AddVector t).Get k = s.Get k + t.Get k := by
  rw [SparseParameterVectorDouble.AddVector,
    spv_foldl_add_get t.values_ s hg k, sum_hits_eq_getD t.values_ k hnd]
  rfl

/-! ## MakeGradientStep and runUpdates characterization -/

/-- `hitSum` over a cons. -/
theorem hitSum_cons (f x : ℕ) (xs : List ℕ) (v : ℚ) :
    hitSum f (x :: xs) v = (if x = f then v else 0) + hitSum f xs v := by
  rw [hitSum, hitSum]
  simp

/-- `hitSum` is homogeneous in the added value. -/
theorem hitSum_smul (f : ℕ) (fs : List ℕ) (c v : ℚ) :
    hitSum f fs (c * v) = c * hitSum f fs v := by
  induction fs with
  | nil => simp [hitSum]
  | cons x xs ih =>
    rw [hitSum_cons, hitSum_cons, ih]
    by_cases hx : x = f
    · rw [if_pos hx, if_pos hx]; ring
    · rw [if_neg hx, if_neg hx]; ring

/-- Unfolding one feature of `MakeGradientStep` when averaging is on. -/
theorem mgs_step_eq (p : Parameters) (x : ℕ) (xs : List ℕ) (eta : ℚ)
    (i : ℤ) (g : ℚ) (hua : p.use_average_ = true) :
    Parameters.MakeGradientStep p (x :: xs) eta i g
      = Parameters.MakeGradientStep
          { p with weights_ := p.weights_.Add x (-eta * g),
                   averaged_weights_ :=
                     p.averaged_weights_.Add x ((i : ℚ) * eta * g) }
          xs eta i g := by
  rw [Parameters.MakeGradientStep, Parameters.MakeGradientStep,
    List.foldl_cons]
  rw [hua]
  simp

/-- One `MakeGradientStep` call moves each live weight by the update's
per-feature delta and each averaged weight by the iteration-weighted
delta, while preserving the averaging flag, the growth flags, key
distinctness, and the other stores. -/
theorem mgs_main (eta : ℚ) (i : ℤ) (g : ℚ) :
    ∀ (features : List ℕ) (p : Parameters), p.use_average_ = true →
      p.weights_.growth_allowed_ = true →
      p.averaged_weights_.growth_allowed_ = true →
      (Parameters.MakeGradientStep p features eta i g).use_average_ = true ∧
      (Parameters.MakeGradientStep p features eta i g).weights_.growth_allowed_
          = true ∧
      (Parameters.MakeGradientStep p features eta i g).averaged_weights_.growth_allowed_
          = true ∧
      (KeysNodup p.weights_ →
        KeysNodup (Parameters.MakeGradientStep p features eta i g).weights_) ∧
      (KeysNodup p.averaged_weights_ →
        KeysNodup (Parameters.MakeGradientStep p features eta i g).averaged_weights_) ∧
      ∀ f,
        (Parameters.MakeGradientStep p features eta i g).weights_.Get f
            = p.weights_.Get f + hitSum f features (-eta * g) ∧
        (Parameters.MakeGradientStep p features eta i g).averaged_weights_.Get f
            = p.averaged_weights_.Get f + hitSum f features ((i : ℚ) * eta * g) := by
  intro features
  induction features with
  | nil =>
    intro p hua hg1 hg2
    refine ⟨hua, hg1, hg2, fun h => h, fun h => h, fun f => ?_⟩
    constructor <;> simp [Parameters.MakeGradientStep, hitSum]
  | cons x xs ih =>
    intro p hua hg1 hg2
    rw [mgs_step_eq p x xs eta i g hua]
    set p1 : Parameters :=
      { p with weights_ := p.weights_.Add x (-eta * g),
               averaged_weights_ :=
                 p.averaged_weights_.Add x ((i : ℚ) * eta * g) } with hp1
    have hua1 : p1.use_average_ = true := hua
    have hg11 : p1.weights_.growth_allowed_ = true := by
      rw [hp1]
      simp only
      rw [spv_add_flag]
      exact hg1
    have hg21 : p1.averaged_weights_.growth_allowed_ = true := by
      rw [hp1]
      simp only
      rw [spv_add_flag]
      exact hg2
    obtain ⟨ha, hb, hc, hd, he, hf⟩ := ih p1 hua1 hg11 hg21
    refine ⟨ha, hb, hc, ?_, ?_, fun f => ?_⟩
    · intro h
      exact hd (spv_add_nodup p.weights_ x (-eta * g) h)
    · intro h
      exact he (spv_add_nodup p.averaged_weights_ x ((i : ℚ) * eta * g) h)
    · obtain ⟨hw, hav⟩ := hf f
      constructor
      · rw [hw]
        have : p1.weights_.Get f
            = p.weights_.Get f + if f = x then -eta * g else 0 :=
          spv_get_add p.weights_ hg1 x f (-eta * g)
        rw [this, hitSum_cons, ite_key_comm]
        ring
      · rw [hav]
        have : p1.averaged_weights_.Get f
            = p.averaged_weights_.Get f + if f = x then (i : ℚ) * eta * g else 0 :=
          spv_get_add p.averaged_weights_ hg2 x f ((i : ℚ) * eta * g)
        rw [this, hitSum_cons, ite_key_comm]
        ring

/-- Running a list of updates adds the per-update deltas to each live
weight and subtracts the iteration-weighted delta sum from each averaged
weight, preserving the averaging flag, the growth flags and key
distinctness. -/
theorem run_main :
    ∀ (us : List Update) (p : Parameters) (i : ℤ), p.use_average_ = true →
      p.weights_.growth_allowed_ = true →
      p.averaged_weights_.growth_allowed_ = true →
      (runUpdates p i us).use_average_ = true ∧
      (runUpdates p i us).weights_.growth_allowed_ = true ∧
      (runUpdates p i us).averaged_weights_.growth_allowed_ = true ∧
      (KeysNodup p.weights_ → KeysNodup (runUpdates p i us).weights_) ∧
      (KeysNodup p.averaged_weights_ →
        KeysNodup (runUpdates p i us).averaged_weights_) ∧
      ∀ f,
        (runUpdates p i us).weights_.Get f
            = p.weights_.Get f + (us.map (fun u => updDelta u f)).sum ∧
        (runUpdates p i us).averaged_weights_.Get f
            = p.averaged_weights_.Get f
                - wsum (i : ℚ) (us.map (fun u => updDelta u f)) := by
  intro us
  induction us with
  | nil =>
    intro p i hua hg1 hg2
    refine ⟨hua, hg1, hg2, fun h => h, fun h => h, fun f => ?_⟩
    constructor <;> simp [runUpdates, wsum]
  | cons u us ih =>
    intro p i hua hg1 hg2
    have hstep : runUpdates p i (u :: us)
        = runUpdates (p.MakeGradientStep u.features u.eta i u.gradient)
            (i + 1) us := rfl
    rw [hstep]
    obtain ⟨ma, mb, mc, md, me, mf⟩ :=
      mgs_main u.eta i u.gradient u.features p hua hg1 hg2
    obtain ⟨ra, rb, rc, rd, re, rf⟩ :=
      ih (p.MakeGradientStep u.features u.eta i u.gradient) (i + 1) ma mb mc
    refine ⟨ra, rb, rc, fun h => rd (md h), fun h => re (me h), fun f => ?_⟩
    obtain ⟨mw, mav⟩ := mf f
    obtain ⟨rw1, rav⟩ := rf f
    constructor
    · rw [rw1, mw]
      simp only [List.map_cons, List.sum_cons, updDelta]
      ring
    · rw [rav, mav]
      simp only [List.map_cons, wsum]
      have hcast : ((i + 1 : ℤ) : ℚ) = (i : ℚ) + 1 := by push_cast; ring
      rw [hcast]
      have hsm : hitSum f u.features ((i : ℚ) * u.eta * u.gradient)
          = (-(i : ℚ)) * hitSum f u.features (-u.eta * u.gradient) := by
        rw [← hitSum_smul]
        have : (-(i : ℚ)) * (-u.eta * u.gradient)
            = (i : ℚ) * u.eta * u.gradient := by ring
        rw [this]
      rw [hsm, updDelta]
      ring

/-- The snapshot sum of a run is the sum of the running partial sums of
the per-update deltas. -/
theorem snap_main :
    ∀ (us : List Update) (p : Parameters) (i : ℤ), p.use_average_ = true →
      p.weights_.growth_allowed_ = true →
      p.averaged_weights_.growth_allowed_ = true →
      ∀ f,
        ((runSnapshots p i us).map (fun q => q.Get f)).sum
          = ssum (p.weights_.Get f) (us.map (fun u => updDelta u f)) := by
  intro us
  induction us with
  | nil =>
    intro p i _ _ _ f
    simp [runSnapshots, ssum]
  | cons u us ih =>
    intro p i hua hg1 hg2 f
    have hstep : runSnapshots p i (u :: us)
        = (p.MakeGradientStep u.features u.eta i u.gradient) ::
            runSnapshots (p.MakeGradientStep u.features u.eta i u.gradient)
              (i + 1) us := rfl
    rw [hstep]
    obtain ⟨ma, mb, mc, _, _, mf⟩ :=
      mgs_main u.eta i u.gradient u.features p hua hg1 hg2
    obtain ⟨mw, _⟩ := mf f
    simp only [List.map_cons, List.sum_cons, List.map_cons, ssum]
    rw [ih (p.MakeGradientStep u.features u.eta i u.gradient) (i + 1) ma mb mc f]
    rw [Parameters.Get, mw, updDelta]

/-- Shifting the starting index of the weighted sum adds one copy of the
plain sum. -/
theorem wsum_shift (r : List ℚ) : ∀ i : ℚ, wsum (i + 1) r = wsum i r + r.sum := by
  induction r with
  | nil => intro i; simp [wsum]
  | cons d rs ih =>
    intro i
    rw [wsum, wsum, List.sum_cons, ih (i + 1)]
    ring

/-- Closed form of the snapshot sum: `L*w + L*sum(ds) - wsum 0 ds`. -/
theorem ssum_closed (ds : List ℚ) :
    ∀ w : ℚ, ssum w ds
      = (ds.length : ℚ) * w + ((ds.length : ℚ) * ds.sum - wsum 0 ds) := by
  induction ds with
  | nil => intro w; simp [ssum, wsum]
  | cons d r ih =>
    intro w
    rw [ssum, ih (w + d)]
    have h0 : wsum 0 (d :: r) = wsum 0 r + r.sum := by
      rw [wsum]
      have := wsum_shift r 0
      rw [this]
      ring
    rw [h0]
    simp only [List.length_cons, List.sum_cons]
    push_cast
    ring

/-- C1: averaging identity.  Starting from a fresh `Parameters` with
averaging on, apply any nonempty sequence of `MakeGradientStep` updates,
the `t`-th with the iteration number the training loop passes (the count
of updates already made, so `0, 1, ..., T-1`); then `Finalize(T)` leaves
every live weight equal to the time-average `(1/T) * (u_1 + ... + u_T)`
of the post-update snapshots — the lazy accumulation agrees with the
naive full-snapshot-sum reference. -/
theorem gradient_averaging_identity (us : List Update) (f : ℕ)
    (h : 0 < us.length) :
    ((runUpdates (ParametersNew.Initialize true) 0 us).Finalize
        (us.length : ℤ)).Get f
      = ((runSnapshots (ParametersNew.Initialize true) 0 us).map
          (fun q => q.Get f)).sum / (us.length : ℚ) := by
  have hua : (ParametersNew.Initialize true).use_average_ = true := rfl
  have hg1 : (ParametersNew.Initialize true).weights_.growth_allowed_
      = true := rfl
  have hg2 : (ParametersNew.Initialize true).averaged_weights_.growth_allowed_
      = true := rfl
  have hn2 : KeysNodup (ParametersNew.Initialize true).averaged_weights_ := by
    simp [KeysNodup, ParametersNew, Parameters.Initialize,
      SparseParameterVectorDouble.Initialize]
  obtain ⟨ra, rb, rc, rd, re, rf⟩ :=
    run_main us (ParametersNew.Initialize true) 0 hua hg1 hg2
  obtain ⟨hw, hav⟩ := rf f
  have hzero1 : (ParametersNew.Initialize true).weights_.Get f = 0 := rfl
  have hzero2 : (ParametersNew.Initialize true).averaged_weights_.Get f
      = 0 := rfl
  have hsnap := snap_main us (ParametersNew.Initialize true) 0 hua hg1 hg2 f
  rw [hzero1] at hsnap
  rw [hzero1] at hw
  rw [hzero2] at hav
  rw [Parameters.Get]
  simp only [Parameters.Finalize, ra, if_true]
  rw [spv_addVector_get _ _ rb (spv_scale_nodup _ _ (re hn2)) f]
  rw [spv_scale_get]
  rw [hw, hav, hsnap, ssum_closed]
  have hlen : ((us.map (fun u => updDelta u f)).length : ℚ)
      = (us.length : ℚ) := by rw [List.length_map]
  have hcast : (((us.length : ℤ)) : ℚ) = (us.length : ℚ) := by push_cast; rfl
  rw [hlen, hcast]
  have hT : (us.length : ℚ) ≠ 0 := by
    exact_mod_cast Nat.pos_iff_ne_zero.mp h
  field_simp
  ring

/-- Witness for C1: a concrete two-update training run (one of them
touching two features, feature 5 twice in total) whose finalized weight
equals the average of the two snapshots. -/
theorem gradient_averaging_identity_w :
    0 < ([⟨[5], 1, 2⟩, ⟨[5, 6], 1, 1⟩] : List Update).length ∧
    ((runUpdates (ParametersNew.Initialize true) 0
        [⟨[5], 1, 2⟩, ⟨[5, 6], 1, 1⟩]).Finalize
          (([⟨[5], 1, 2⟩, ⟨[5, 6], 1, 1⟩] : List Update).length : ℤ)).Get 5
      = ((runSnapshots (ParametersNew.Initialize true) 0
          [⟨[5], 1, 2⟩, ⟨[5, 6], 1, 1⟩]).map (fun q => q.Get 5)).sum
          / (([⟨[5], 1, 2⟩, ⟨[5, 6], 1, 1⟩] : List Update).length : ℚ) :=
  ⟨by decide,
   gradient_averaging_identity [⟨[5], 1, 2⟩, ⟨[5, 6], 1, 1⟩] 5 (by decide)⟩

/-! ## Cached label scoring: plumbing lemmas -/

/-- Two slot-adds commute (also at the same slot, since addition does). -/
theorem listAddAt_comm (sc : List ℚ) :
    ∀ (i j : ℕ) (v w : ℚ),
      listAddAt (listAddAt sc i v) j w = listAddAt (listAddAt sc j w) i v := by
  induction sc with
  | nil => intro i j v w; rfl
  | cons x xs ih =>
    intro i j v w
    match i, j with
    | 0, 0 =>
      simp only [listAddAt]
      ring_nf
    | 0, j + 1 => simp only [listAddAt]
    | i + 1, 0 => simp only [listAddAt]
    | i + 1, j + 1 =>
      simp only [listAddAt]
      rw [ih i j v w]

/-- A slot-add keeps the vector length. -/
theorem listAddAt_length (sc : List ℚ) :
    ∀ (i : ℕ) (v : ℚ), (listAddAt sc i v).length = sc.length := by
  induction sc with
  | nil => intro i v; rfl
  | cons x xs ih =>
    intro i v
    match i with
    | 0 => rfl
    | i + 1 =>
      simp only [listAddAt, List.length_cons]
      rw [ih i v]

/-- `scoresFold` over a cons. -/
theorem scoresFold_cons (t : ℕ × ℤ × ℚ) (r : List (ℕ × ℤ × ℚ)) (sc : List ℚ) :
    scoresFold (t :: r) sc = scoresFold r (listAddAt sc t.1 t.2.2) := rfl

/-- `scoresFold` commutes with a slot-add. -/
theorem scoresFold_addAt (zs : List (ℕ × ℤ × ℚ)) :
    ∀ (sc : List ℚ) (i : ℕ) (v : ℚ),
      scoresFold zs (listAddAt sc i v) = listAddAt (scoresFold zs sc) i v := by
  induction zs with
  | nil => intro sc i v; rfl
  | cons t r ih =>
    intro sc i v
    rw [scoresFold_cons, scoresFold_cons, listAddAt_comm, ih]

/-- `zipAddFrom` commutes with a slot-add. -/
theorem zipAddFrom_addAt (vs : List ℚ) :
    ∀ (sc : List ℚ) (k i : ℕ) (v : ℚ),
      zipAddFrom (listAddAt sc i v) k vs = listAddAt (zipAddFrom sc k vs) i v := by
  induction vs with
  | nil => intro sc k i v; rfl
  | cons w ws ih =>
    intro sc k i v
    rw [zipAddFrom, zipAddFrom, listAddAt_comm, ih]

/-- `zipAddFrom` starting past the head leaves the head alone. -/
theorem zipAddFrom_cons_shift (vs : List ℚ) :
    ∀ (y : ℚ) (ys : List ℚ) (k : ℕ),
      zipAddFrom (y :: ys) (k + 1) vs = y :: zipAddFrom ys k vs := by
  induction vs with
  | nil => intro y ys k; rfl
  | cons w ws ih =>
    intro y ys k
    rw [zipAddFrom]
    have : listAddAt (y :: ys) (k + 1) w = y :: listAddAt ys k w := rfl
    rw [this, ih, zipAddFrom]

/-- On equal lengths, pointwise addition is the same as consecutive
slot-adds from slot 0. -/
theorem zipWith_eq_zipAddFrom (vs : List ℚ) :
    ∀ (sc : List ℚ), sc.length = vs.length →
      List.zipWith (fun a b => a + b) sc vs = zipAddFrom sc 0 vs := by
  induction vs with
  | nil =>
    intro sc h
    rw [List.length_nil, List.length_eq_zero] at h
    rw [h]
    rfl
  | cons w ws ih =>
    intro sc h
    match sc with
    | [] => simp at h
    | x :: xs =>
      simp only [List.length_cons, Nat.succ_inj] at h  -- xs.length = ws.length
      rw [List.zipWith_cons_cons, zipAddFrom]
      have h0 : listAddAt (x :: xs) 0 w = (x + w) :: xs := rfl
      rw [h0, zipAddFrom_cons_shift, ih xs h]

/-! ## Cached label scoring: store and cache facts -/

/-- On an existing feature, the labeled `Get` returns the per-pair weights
of the requested labels. -/
theorem slpv_get_of_exists (s : SparseLabeledParameterVector) (key : ℕ)
    (labels : List ℤ) (hex : s.Exists key = true) :
    s.Get key labels = some (labels.map (fun l => s.GetValue key l)) := by
  rw [SparseLabeledParameterVector.Exists] at hex
  obtain ⟨lv, hlv⟩ := Option.isSome_iff_exists.mp hex
  rw [SparseLabeledParameterVector.Get, hlv]
  have : (fun l => (assocFind lv l).getD 0) = fun l => s.GetValue key l := by
    funext l
    rw [SparseLabeledParameterVector.GetValue, hlv]
  show some (List.map (fun l => (assocFind lv l).getD 0) labels)
      = some (List.map (fun l => s.GetValue key l) labels)
  rw [this]

/-- On a feature with no label row, the labeled `Get` reports not-found. -/
theorem slpv_get_of_not_exists (s : SparseLabeledParameterVector) (key : ℕ)
    (labels : List ℤ) (hex : s.Exists key = false) :
    s.Get key labels = none := by
  rw [SparseLabeledParameterVector.Exists] at hex
  have : assocFind s.values_ key = none :=
    Option.not_isSome_iff_eq_none.mp (by rw [hex]; simp)
  rw [SparseLabeledParameterVector.Get, this]

/-- A successful labeled `Get` returns one weight per requested label. -/
theorem slpv_get_some_length (s : SparseLabeledParameterVector) (key : ℕ)
    (labels : List ℤ) (ls : List ℚ) (h : s.Get key labels = some ls) :
    ls.length = labels.length := by
  rw [SparseLabeledParameterVector.Get] at h
  cases hlv : assocFind s.values_ key with
  | none => rw [hlv] at h; simp at h
  | some lv =>
    rw [hlv] at h
    injection h with h1
    rw [← h1, List.length_map]

/-- A cached value found under a consistent cache is the store's weight. -/
theorem find_val_of_consistent (p : Parameters) (c : FeatureLabelCache)
    (f : ℕ) (lab : ℤ) (v : ℚ) (hcons : cacheConsistent p c)
    (h : c.Find (f, lab) = some v) :
    v = p.labeled_weights_.GetValue f lab := by
  have hmem : ((f, lab), v) ∈ c.cache_ := assocFind_mem c.cache_ (f, lab) v h
  exact hcons ((f, lab), v) hmem

/-- Two caches with the same table are consistent together. -/
theorem cacheConsistent_of_entries_eq (p : Parameters)
    (c1 c2 : FeatureLabelCache) (h : c1.cache_ = c2.cache_)
    (hcons : cacheConsistent p c2) : cacheConsistent p c1 := by
  intro e he
  exact hcons e (by rwa [h] at he)

/-- Inserting the store's own weight of a pair preserves consistency. -/
theorem insert_consistent (p : Parameters) (c : FeatureLabelCache)
    (key : ℕ × ℤ) (v : ℚ) (hv : v = p.labeled_weights_.GetValue key.1 key.2)
    (hcons : cacheConsistent p c) : cacheConsistent p (c.Insert key v) := by
  rw [FeatureLabelCache.Insert]
  by_cases hf : (assocFind c.cache_ key).isSome = true
  · rw [if_pos hf]; exact hcons
  · rw [if_neg hf]
    intro e he
    rcases List.mem_cons.mp he with rfl | he'
    · exact hv
    · exact hcons e he'

/-- `Insert` never changes the counters. -/
theorem insert_counters (c : FeatureLabelCache) (key : ℕ × ℤ) (v : ℚ) :
    (c.Insert key v).hits_ = c.hits_ ∧ (c.Insert key v).misses_ = c.misses_ := by
  rw [FeatureLabelCache.Insert]
  split
  · exact ⟨rfl, rfl⟩
  · exact ⟨rfl, rfl⟩

/-- In the zip of a list with its own image, values are the image of the
keys. -/
theorem zip_self_map_val {α β : Type} (g : α → β) :
    ∀ (l : List α) (x : α × β), x ∈ l.zip (l.map g) → x.2 = g x.1 := by
  intro l
  induction l with
  | nil => intro x hx; simp at hx
  | cons a r ih =>
    intro x hx
    simp only [List.map_cons, List.zip_cons_cons, List.mem_cons] at hx
    rcases hx with rfl | hx
    · rfl
    · exact ih x hx

/-! ## Cached label scoring: the label scan -/

/-- The label scan never changes the cache table (only the counters). -/
theorem scan_cache_entries (f : ℕ) :
    ∀ (labels : List ℤ) (c : FeatureLabelCache) (k : ℕ) (sc : List ℚ),
      (scanLabels f c labels k sc).1.cache_ = c.cache_ := by
  intro labels
  induction labels with
  | nil => intro c k sc; rfl
  | cons lab rest ih =>
    intro c k sc
    rw [scanLabels]
    cases hfind : c.Find (f, lab) with
    | none =>
      simp only [hfind]
      exact ih c.IncrementMisses (k + 1) sc
    | some v =>
      simp only [hfind]
      exact ih c.IncrementHits (k + 1) (listAddAt sc k v)

/-- The label scan bumps the hit/miss total by exactly one per label. -/
theorem scan_counters (f : ℕ) :
    ∀ (labels : List ℤ) (c : FeatureLabelCache) (k : ℕ) (sc : List ℚ),
      (scanLabels f c labels k sc).1.hits_
          + (scanLabels f c labels k sc).1.misses_
        = c.hits_ + c.misses_ + labels.length := by
  intro labels
  induction labels with
  | nil => intro c k sc; rfl
  | cons lab rest ih =>
    intro c k sc
    rw [scanLabels]
    cases hfind : c.Find (f, lab) with
    | none =>
      simp only [hfind]
      rw [ih c.IncrementMisses (k + 1) sc]
      rw [FeatureLabelCache.IncrementMisses]
      simp only [List.length_cons]
      ring
    | some v =>
      simp only [hfind]
      rw [ih c.IncrementHits (k + 1) (listAddAt sc k v)]
      rw [FeatureLabelCache.IncrementHits]
      simp only [List.length_cons]
      ring

/-- Composite effect of the label scan followed by the reduced-label
write-back: under a consistent cache, the scores receive exactly the
store's per-pair weight of every requested label, at its own slot. -/
theorem scan_composite (p : Parameters) (f : ℕ) :
    ∀ (labels : List ℤ) (c : FeatureLabelCache) (k : ℕ) (sc : List ℚ),
      cacheConsistent p c →
      scoresFold
        ((scanLabels f c labels k sc).2.2.1.zip
          ((scanLabels f c labels k sc).2.1.zip
            ((scanLabels f c labels k sc).2.1.map
              (fun l => p.labeled_weights_.GetValue f l))))
        (scanLabels f c labels k sc).2.2.2
      = zipAddFrom sc k
          (labels.map (fun l => p.labeled_weights_.GetValue f l)) := by
  intro labels
  induction labels with
  | nil =>
    intro c k sc _
    rfl
  | cons lab rest ih =>
    intro c k sc hcons
    rw [scanLabels]
    cases hfind : c.Find (f, lab) with
    | none =>
      simp only [hfind, List.map_cons, List.zip_cons_cons]
      rw [scoresFold_cons]
      have hconsM : cacheConsistent p c.IncrementMisses := hcons
      rw [scoresFold_addAt, ih c.IncrementMisses (k + 1) sc hconsM]
      rw [← zipAddFrom_addAt]
      rfl
    | some v =>
      simp only [hfind, List.map_cons]
      have hconsH : cacheConsistent p c.IncrementHits := hcons
      rw [ih c.IncrementHits (k + 1) (listAddAt sc k v) hconsH]
      have hv : v = p.labeled_weights_.GetValue f lab :=
        find_val_of_consistent p c f lab v hcons hfind
      rw [hv]
      rfl

/-! ## Cached label scoring: the per-feature step -/

/-- Score component of the write-back fold over (slot, label, value)
triples. -/
theorem pairFold_scores (f : ℕ) :
    ∀ (zs : List (ℕ × ℤ × ℚ)) (sc : List ℚ) (c : FeatureLabelCache),
      (zs.foldl
        (fun st' t => (listAddAt st'.1 t.1 t.2.2, st'.2.Insert (f, t.2.1) t.2.2))
        (sc, c)).1 = scoresFold zs sc := by
  intro zs
  induction zs with
  | nil => intro sc c; rfl
  | cons t r ih =>
    intro sc c
    rw [List.foldl_cons, scoresFold_cons]
    exact ih (listAddAt sc t.1 t.2.2) (c.Insert (f, t.2.1) t.2.2)

/-- Cache component of the write-back fold over (slot, label, value)
triples. -/
theorem pairFold_cache (f : ℕ) :
    ∀ (zs : List (ℕ × ℤ × ℚ)) (sc : List ℚ) (c : FeatureLabelCache),
      (zs.foldl
        (fun st' t => (listAddAt st'.1 t.1 t.2.2, st'.2.Insert (f, t.2.1) t.2.2))
        (sc, c)).2
      = zs.foldl (fun c' t => c'.Insert (f, t.2.1) t.2.2) c := by
  intro zs
  induction zs with
  | nil => intro sc c; rfl
  | cons t r ih =>
    intro sc c
    rw [List.foldl_cons, List.foldl_cons]
    exact ih (listAddAt sc t.1 t.2.2) (c.Insert (f, t.2.1) t.2.2)

/-- The insert fold keeps the counters. -/
theorem insertFold_counters (f : ℕ) :
    ∀ (zs : List (ℕ × ℤ × ℚ)) (c : FeatureLabelCache),
      (zs.foldl (fun c' t => c'.Insert (f, t.2.1) t.2.2) c).hits_ = c.hits_ ∧
      (zs.foldl (fun c' t => c'.Insert (f, t.2.1) t.2.2) c).misses_
        = c.misses_ := by
  intro zs
  induction zs with
  | nil => intro c; exact ⟨rfl, rfl⟩
  | cons t r ih =>
    intro c
    rw [List.foldl_cons]
    obtain ⟨h1, h2⟩ := ih (c.Insert (f, t.2.1) t.2.2)
    obtain ⟨h3, h4⟩ := insert_counters c (f, t.2.1) t.2.2
    exact ⟨by rw [h1, h3], by rw [h2, h4]⟩

/-- The insert fold preserves consistency when every inserted value is
the store's own weight of its pair. -/
theorem insertFold_consistent (p : Parameters) (f : ℕ) :
    ∀ (zs : List (ℕ × ℤ × ℚ)) (c : FeatureLabelCache),
      (∀ t ∈ zs, t.2.2 = p.labeled_weights_.GetValue f t.2.1) →
      cacheConsistent p c →
      cacheConsistent p (zs.foldl (fun c' t => c'.Insert (f, t.2.1) t.2.2) c) := by
  intro zs
  induction zs with
  | nil => intro c _ hcons; exact hcons
  | cons t r ih =>
    intro c hvals hcons
    rw [List.foldl_cons]
    refine ih (c.Insert (f, t.2.1) t.2.2) (fun t' ht' => hvals t' (List.mem_cons_of_mem t ht')) ?_
    exact insert_consistent p c (f, t.2.1) t.2.2
      (hvals t (List.mem_cons_self t r)) hcons

/-- Values carried by the write-back triples are the store's weights. -/
theorem zip3_vals (p : Parameters) (f : ℕ) (adj : List ℕ) (red : List ℤ) :
    ∀ t ∈ adj.zip (red.zip (red.map (fun l => p.labeled_weights_.GetValue f l))),
      t.2.2 = p.labeled_weights_.GetValue f t.2.1 := by
  intro t ht
  have h2 : t.2 ∈ red.zip (red.map (fun l => p.labeled_weights_.GetValue f l)) :=
    (List.of_mem_zip ht).2
  exact zip_self_map_val (fun l => p.labeled_weights_.GetValue f l) red t.2 h2

/-- The per-feature cached step writes the same scores the uncached loop
body writes, whenever the cache agrees with the labeled store. -/
theorem featureStep_scores (p : Parameters) (labels : List ℤ)
    (st : List ℚ × FeatureLabelCache) (f : ℕ)
    (hlen : st.1.length = labels.length)
    (hcons : cacheConsistent p st.2) :
    (featureStepCached p labels st f).1
      = match p.labeled_weights_.Get f labels with
        | none => st.1
        | some ls => List.zipWith (fun a b => a + b) st.1 ls := by
  by_cases hex : p.ExistsLabeled f = true
  · have hex' : p.labeled_weights_.Exists f = true := hex
    have hget := slpv_get_of_exists p.labeled_weights_ f labels hex'
    rw [hget]
    simp only
    rw [zipWith_eq_zipAddFrom _ st.1 (by rw [hlen, List.length_map])]
    simp only [featureStepCached, hex, if_true]
    by_cases hred : (scanLabels f st.2 labels 0 st.1).2.1 = []
    · have hcomp := scan_composite p f labels st.2 0 st.1 hcons
      rw [hred] at hcomp
      simp only [List.map_nil, List.zip_nil_right, scoresFold,
        List.foldl_nil] at hcomp
      simp only [hred, if_true, eq_self_iff_true]
      exact hcomp
    · rw [if_neg hred]
      have hget2 := slpv_get_of_exists p.labeled_weights_ f
        (scanLabels f st.2 labels 0 st.1).2.1 hex'
      simp only [hget2]
      rw [pairFold_scores]
      exact scan_composite p f labels st.2 0 st.1 hcons
  · have hexf : p.ExistsLabeled f = false := by
      cases hb : p.ExistsLabeled f
      · rfl
      · exact absurd hb hex
    have hget := slpv_get_of_not_exists p.labeled_weights_ f labels hexf
    rw [hget]
    simp only [featureStepCached, hexf]
    rfl

/-- The per-feature cached step preserves cache consistency. -/
theorem featureStep_consistent (p : Parameters) (labels : List ℤ)
    (st : List ℚ × FeatureLabelCache) (f : ℕ)
    (hcons : cacheConsistent p st.2) :
    cacheConsistent p (featureStepCached p labels st f).2 := by
  have hbase : cacheConsistent p (scanLabels f st.2 labels 0 st.1).1 :=
    cacheConsistent_of_entries_eq p _ st.2
      (scan_cache_entries f labels st.2 0 st.1) hcons
  by_cases hex : p.ExistsLabeled f = true
  · simp only [featureStepCached, hex, if_true]
    by_cases hred : (scanLabels f st.2 labels 0 st.1).2.1 = []
    · simp only [hred, if_true, eq_self_iff_true]
      exact hbase
    · rw [if_neg hred]
      have hex' : p.labeled_weights_.Exists f = true := hex
      have hget2 := slpv_get_of_exists p.labeled_weights_ f
        (scanLabels f st.2 labels 0 st.1).2.1 hex'
      simp only [hget2]
      rw [pairFold_cache]
      exact insertFold_consistent p f _ _ (zip3_vals p f _ _) hbase
  · have hexf : p.ExistsLabeled f = false := by
      cases hb : p.ExistsLabeled f
      · rfl
      · exact absurd hb hex
    simp only [featureStepCached, hexf]
    simpa using hcons

/-- The per-feature cached step bumps the hit/miss total by the label
count when the feature has labeled weights, and not at all otherwise. -/
theorem featureStep_counters (p : Parameters) (labels : List ℤ)
    (st : List ℚ × FeatureLabelCache) (f : ℕ) :
    (featureStepCached p labels st f).2.hits_
        + (featureStepCached p labels st f).2.misses_
      = st.2.hits_ + st.2.misses_
          + (if p.ExistsLabeled f then labels.length else 0) := by
  have hscan := scan_counters f labels st.2 0 st.1
  by_cases hex : p.ExistsLabeled f = true
  · rw [if_pos hex]
    simp only [featureStepCached, hex, if_true]
    by_cases hred : (scanLabels f st.2 labels 0 st.1).2.1 = []
    · simp only [hred, if_true, eq_self_iff_true]
      exact hscan
    · rw [if_neg hred]
      have hex' : p.labeled_weights_.Exists f = true := hex
      have hget2 := slpv_get_of_exists p.labeled_weights_ f
        (scanLabels f st.2 labels 0 st.1).2.1 hex'
      simp only [hget2]
      rw [pairFold_cache]
      obtain ⟨h1, h2⟩ := insertFold_counters f
        ((scanLabels f st.2 labels 0 st.1).2.2.1.zip
          ((scanLabels f st.2 labels 0 st.1).2.1.zip
            (List.map (fun l => p.labeled_weights_.GetValue f l)
              (scanLabels f st.2 labels 0 st.1).2.1)))
        (scanLabels f st.2 labels 0 st.1).1
      rw [h1, h2]
      exact hscan
  · have hexf : p.ExistsLabeled f = false := by
      cases hb : p.ExistsLabeled f
      · rfl
      · exact absurd hb hex
    rw [hexf]
    simp only [featureStepCached, hexf]
    simp

/-- The cached scoring loop, from any start state whose scores slot count
matches the labels and whose cache agrees with the labeled store,
computes the same scores as the uncached loop. -/
theorem fold_scores_eq (p : Parameters) (labels : List ℤ) :
    ∀ (features : List ℕ) (st : List ℚ × FeatureLabelCache),
      st.1.length = labels.length → cacheConsistent p st.2 →
      (features.foldl (featureStepCached p labels) st).1
        = features.foldl (fun scores f =>
            match p.labeled_weights_.Get f labels with
            | none => scores
            | some ls => List.zipWith (fun a b => a + b) scores ls) st.1 := by
  intro features
  induction features with
  | nil => intro st _ _; rfl
  | cons f fs ih =>
    intro st hlen hcons
    rw [List.foldl_cons, List.foldl_cons]
    have h1 := featureStep_scores p labels st f hlen hcons
    have h2 := featureStep_consistent p labels st f hcons
    have hlen' : (featureStepCached p labels st f).1.length = labels.length := by
      rw [h1]
      cases hget : p.labeled_weights_.Get f labels with
      | none => simp only [hget]; exact hlen
      | some ls =>
        have hl := slpv_get_some_length p.labeled_weights_ f labels ls hget
        simp only [hget, List.length_zipWith, hlen, hl, min_self]
    rw [ih (featureStepCached p labels st f) hlen' h2, h1]

/-- The cached scoring loop bumps the counter total by `labels.length`
for every listed feature present in the labeled store (with
multiplicity), and by nothing for the others. -/
theorem fold_counters (p : Parameters) (labels : List ℤ) :
    ∀ (features : List ℕ) (st : List ℚ × FeatureLabelCache),
      (features.foldl (featureStepCached p labels) st).2.hits_
          + (features.foldl (featureStepCached p labels) st).2.misses_
        = st.2.hits_ + st.2.misses_
            + (features.countP (fun f => p.ExistsLabeled f)) * labels.length := by
  intro features
  induction features with
  | nil => intro st; simp
  | cons f fs ih =>
    intro st
    rw [List.foldl_cons, ih (featureStepCached p labels st f),
      featureStep_counters p labels st f, List.countP_cons]
    by_cases hex : p.ExistsLabeled f = true
    · rw [if_pos hex, hex, if_pos rfl]
      ring
    · have hexf : p.ExistsLabeled f = false := by
        cases hb : p.ExistsLabeled f
        · rfl
        · exact absurd hb hex
      rw [if_neg hex, hexf]
      simp

/-- C2: whenever every cached entry equals the current weight of its
(feature, label) pair in the labeled store (in particular for an empty
cache), `ComputeLabelScoresWithCache` computes exactly the same score
vector as `ComputeLabelScores`, and the only component of the
`Parameters` state it may change is the cache member. -/
theorem computeLabelScoresWithCache_matches_uncached
    (p : Parameters) (features : List ℕ) (labels : List ℤ)
    (hcons : cacheConsistent p p.caching_weights_) :
    (p.ComputeLabelScoresWithCache features labels).1
      = p.ComputeLabelScores features labels ∧
    (p.ComputeLabelScoresWithCache features labels).2.weights_ = p.weights_ ∧
    (p.ComputeLabelScoresWithCache features labels).2.averaged_weights_
      = p.averaged_weights_ ∧
    (p.ComputeLabelScoresWithCache features labels).2.labeled_weights_
      = p.labeled_weights_ ∧
    (p.ComputeLabelScoresWithCache features labels).2.averaged_labeled_weights_
      = p.averaged_labeled_weights_ ∧
    (p.ComputeLabelScoresWithCache features labels).2.use_average_
      = p.use_average_ := by
  refine ⟨?_, rfl, rfl, rfl, rfl, rfl⟩
  simp only [Parameters.ComputeLabelScoresWithCache, Parameters.ComputeLabelScores]
  exact fold_scores_eq p labels features
    (List.replicate labels.length 0, p.caching_weights_)
    (by rw [List.length_replicate]) hcons

/-- Witness for C2 at concrete parameters with a nonempty consistent
cache (one hit, several misses, one skipped feature). -/
theorem computeLabelScoresWithCache_matches_uncached_w :
    cacheConsistent cachedSampleParams cachedSampleParams.caching_weights_ ∧
    (cachedSampleParams.ComputeLabelScoresWithCache [1, 3, 2] [0, 1]).1
      = cachedSampleParams.ComputeLabelScores [1, 3, 2] [0, 1] := by
  have hcons : cacheConsistent cachedSampleParams
      cachedSampleParams.caching_weights_ := by
    rw [cacheConsistent]
    decide
  exact ⟨hcons, (computeLabelScoresWithCache_matches_uncached
    cachedSampleParams [1, 3, 2] [0, 1] hcons).1⟩

/-- Counterexample to C3 as stated: a feature absent from the labeled
store is skipped before any cache query, so with one absent feature and
one label the counter total stays 0, not |features| * |labels| = 1. -/
theorem cached_scoring_counter_claim_cex :
    ((ParametersNew.ComputeLabelScoresWithCache [0] [0]).2.caching_weights_.hits_
        + (ParametersNew.ComputeLabelScoresWithCache
            [0] [0]).2.caching_weights_.misses_ = 0) ∧
    ([0] : List ℕ).length * ([0] : List ℤ).length = 1 := by
  refine ⟨?_, rfl⟩
  decide

/-- C3 (amended): each (feature, label) pair actually looked up bumps
exactly one of the two counters once, and the pairs looked up are one
per label for each listed feature present in the labeled store (with
multiplicity); features absent from the labeled store are skipped before
any cache query, so the total increase is
(number of listed features passing ExistsLabeled) * |labels|. -/
theorem cached_scoring_counter_total (p : Parameters) (features : List ℕ)
    (labels : List ℤ) :
    (p.ComputeLabelScoresWithCache features labels).2.caching_weights_.hits_
        + (p.ComputeLabelScoresWithCache
            features labels).2.caching_weights_.misses_
      = p.caching_weights_.hits_ + p.caching_weights_.misses_
          + (features.countP (fun f => p.ExistsLabeled f)) * labels.length := by
  simp only [Parameters.ComputeLabelScoresWithCache]
  exact fold_counters p labels features
    (List.replicate labels.length 0, p.caching_weights_)
